import Mathlib

/-!
Verification of the graph-grouper core (`graph_grouper.cpp`): the dominator
fixed-point analysis (`DominatorInfo`) and the dominance-pruned region
selection (`add_nodes`), over a shallow embedding.

The embedding has two layers:
* a total layer (`bsOr`, `bsAnd`, `onePass`, `dominatorTable`, `add_nodes`,
  `select`) used by most theorems, in which bit-vector element accesses use
  defaulted lookups (`List.getD`); all accesses are exercised only on
  equal-length vectors, as established by the checked layer;
* a checked layer (`bsOrC`, `bsAndC`, `dominatorTableC`, ...) that models
  `std::vector<bool>::at` faithfully with `Option`, a `none` standing for the
  out-of-range exception; its agreement with the total layer on well-formed
  graphs is proved (`dominatorTableC_eq`).

Node iteration (`node_iterator`) over an IDA `mutable_graph_t` of size `N`
enumerates node ids `0, ..., N-1`; we model the graph view by its size, entry
node, and per-node ordered predecessor/successor lists, and node iteration by
`List.range`.
-/

namespace GraphGrouper

/-- The graph view consumed from the host (`mutable_graph_t`): node count,
entry node, ordered predecessor and successor lists (`npred`/`pred`,
`nsucc`/`succ`). Node ids are intended to lie in `[0, size)`. -/
structure Graph where
  size : Nat
  entry : Nat
  pred : Nat → List Nat
  succ : Nat → List Nat

/-- Well-formedness of the host graph view: the entry node and every listed
predecessor and successor are valid node ids. -/
def Graph.WF (g : Graph) : Prop :=
  g.entry < g.size ∧
    (∀ n, ∀ p ∈ g.pred n, p < g.size) ∧
    (∀ n, ∀ s ∈ g.succ n, s < g.size)

/-! ### The `bitsett` class, total layer

`bitsett` is a `std::vector<bool>`; we represent it as `List Bool`, bit `i`
at position `i`.  The operators `|=` and `&=` loop over the indices of the
left operand and update it pointwise; on equal-length vectors (the only use in
the program, see the checked layer) this is `List.zipWith`. -/

/-- Models `bitsett::operator|=`: pointwise or (for each `i < size()`, set bit `i`
when the right operand has it). -/
def bsOr (a b : List Bool) : List Bool :=
  List.zipWith (fun x y => x || y) a b

/-- Models `bitsett::operator&=`: pointwise and (for each `i < size()`, clear bit `i`
when the right operand lacks it). -/
def bsAnd (a b : List Bool) : List Bool :=
  List.zipWith (fun x y => x && y) a b

/-- Models `bitsett::set(void)`: same size, all bits true. -/
def bsSetAll (a : List Bool) : List Bool :=
  List.replicate a.length true

/-- Models `bitsett::set(int n)`: set bit `n` (checked in the source; total here). -/
def bsSet (a : List Bool) (n : Nat) : List Bool :=
  a.set n true

/-- Models `bitsett::reset(void)`: same size, all bits false. -/
def bsResetAll (a : List Bool) : List Bool :=
  List.replicate a.length false

/-- Models `bitsett::test(int n)`: read bit `n` (checked in the source; total here). -/
def bsTest (a : List Bool) (n : Nat) : Bool :=
  a.getD n false

/-! ### The DominatorInfo construction, total layer

The constructor initializes every node's dominator set to all-ones, then the
entry's to the singleton of itself, and iterates the update
`doms[node] := (doms[node] ∩ doms[pred]) ∪ {node}` over every predecessor of
every non-entry node until a full pass changes nothing.  The temporary `t`
(`t.reset(); t |= doms[node]`) is a copy of `doms[node]` before the update,
used to detect change.  The do-while loop is modelled with explicit fuel
`size * size + 1`; the theorem for C6 (`domLoop_reaches_fixpoint` machinery)
shows this fuel always suffices, so the model agrees with the unbounded
loop of the source. -/

/-- One `doms[node] &= doms[pred]; doms[node].set(node)` update for a single
predecessor, with change detection against the saved copy `t`. -/
def predStep (node : Nat) (acc : List (List Bool) × Bool) (p : Nat) :
    List (List Bool) × Bool :=
  let dn := acc.1.getD node []
  let t := dn
  let dn2 := bsSet (bsAnd dn (acc.1.getD p [])) node
  (acc.1.set node dn2, acc.2 || decide (dn2 ≠ t))

/-- The body of the pass for one node: skip the entry, otherwise fold the
update over the node's predecessor list in order. -/
def nodeStep (g : Graph) (acc : List (List Bool) × Bool) (node : Nat) :
    List (List Bool) × Bool :=
  if node = g.entry then acc
  else (g.pred node).foldl (predStep node) acc

/-- One full pass of the do-while body over all nodes, with the `changed`
flag starting false. -/
def onePass (g : Graph) (doms : List (List Bool)) : List (List Bool) × Bool :=
  (List.range g.size).foldl (nodeStep g) (doms, false)

/-- The initial table: every node's set all-ones, then
`doms[entry].reset(); doms[entry].set(entry)`. -/
def initDoms (g : Graph) : List (List Bool) :=
  (List.replicate g.size (List.replicate g.size true)).set g.entry
    (bsSet (List.replicate g.size false) g.entry)

/-- The do-while loop: repeat passes while `changed`, with explicit fuel. -/
def domLoop (g : Graph) : Nat → List (List Bool) → List (List Bool)
  | 0, doms => doms
  | fuel + 1, doms =>
    let p := onePass g doms
    if p.2 then domLoop g fuel p.1 else p.1

/-- The constructed dominance table (`DominatorInfo::doms`). -/
def dominatorTable (g : Graph) : List (List Bool) :=
  domLoop g (g.size * g.size + 1) (initDoms g)

/-- Models `DominatorInfo::dominates_node`: does `node` dominate `node2`?
Reads bit `node` of `doms[node2]`. -/
def dominates_node (doms : List (List Bool)) (node node2 : Nat) : Bool :=
  bsTest (doms.getD node2 []) node

/-! ### Region selection, total layer

`add_nodes` queries the boundary predicate on the current node (in the source,
`is_end_node`, which reads a host comment; it is a caller-supplied opaque
predicate per the host interface, modelled as `isEnd : Nat → Bool`), returns
at a boundary, otherwise appends the node and recurses into each successor in
order that is not yet in the list and is dominated by the start node.  The
recursion is modelled with explicit fuel; `select` supplies fuel
`size + 1`, shown sufficient for well-formed graphs by the traversal
lemmas. -/

/-- Models `add_nodes(graph, d, nodes, startNode, node)`: return at a boundary
node; otherwise push the node and run the `for` loop over its successor list
(modelled as a left fold), recursing into each successor that has not been
added (`!nodes.has(succ)`) and is dominated by the start node. -/
def add_nodes (g : Graph) (d : List (List Bool)) (isEnd : Nat → Bool)
    (startNode : Nat) : Nat → Nat → List Nat → List Nat
  | 0, _, nodes => nodes
  | fuel + 1, node, nodes =>
    if isEnd node = true then nodes
    else
      (g.succ node).foldl
        (fun ns sc =>
          if sc ∉ ns ∧ dominates_node d startNode sc = true then
            add_nodes g d isEnd startNode fuel sc ns
          else ns)
        (nodes ++ [node])

/-- The body of the successor loop of `add_nodes`, named for the lemmas. -/
def succStep (g : Graph) (d : List (List Bool)) (isEnd : Nat → Bool)
    (startNode fuel : Nat) (ns : List Nat) (sc : Nat) : List Nat :=
  if sc ∉ ns ∧ dominates_node d startNode sc = true then
    add_nodes g d isEnd startNode fuel sc ns
  else ns

/-- The region-selection query as performed by `run`:
`add_nodes(graph, &dominatorInfo, nodeSet, startNode, startNode)` on an empty
node set. -/
def select (g : Graph) (d : List (List Bool)) (isEnd : Nat → Bool)
    (startNode : Nat) : List Nat :=
  add_nodes g d isEnd startNode (g.size + 1) startNode []

/-! ### Predicates and measures used by the verification -/

/-- The table invariant: what holds of `doms` at every point of the
construction — there is one row per node, each row has one bit per node,
every node's row contains its own bit, and every node's row contains the
entry's bit. -/
def TableInv (g : Graph) (doms : List (List Bool)) : Prop :=
  doms.length = g.size ∧
    (∀ n, n < g.size → (doms.getD n []).length = g.size) ∧
    (∀ n, n < g.size → bsTest (doms.getD n []) n = true) ∧
    (∀ n, n < g.size → bsTest (doms.getD n []) g.entry = true)

/-- Number of true bits in one dominator set. -/
def rowWeight (r : List Bool) : Nat := r.count true

/-- The descent measure: total number of true bits in the table.  Under
`TableInv`, every update of the fixed-point computation either leaves its row
unchanged or strictly shrinks it, so a pass that reports `changed` strictly
decreases this measure; it bounds the number of passes of the do-while
loop. -/
def tableWeight (doms : List (List Bool)) : Nat := (doms.map rowWeight).sum

/-- Relation between successive states of the fixed-point computation: the
measure never grows, it strictly decreases whenever the `changed` flag was
newly raised, and a step that leaves the flag false left the table alone. -/
def StepOK (q q2 : List (List Bool) × Bool) : Prop :=
  tableWeight q2.1 ≤ tableWeight q.1 ∧
    (q2.2 = true → q.2 = true ∨ tableWeight q2.1 < tableWeight q.1) ∧
    (q2.2 = false → q.2 = false ∧ q2.1 = q.1)

/-- Reachability from `a` to `b` by following successor edges. -/
def Reaches (g : Graph) (a b : Nat) : Prop :=
  Relation.ReflTransGen (fun x y => y ∈ g.succ x) a b

/-- The edge relation actually followed by `add_nodes` from an added node `a`:
`b` is a successor of `a`, dominated by the start node, and not a boundary
node.  Region membership equals reflexive-transitive closure of this relation
from the start node (when the start is not a boundary). -/
def StepEdge (g : Graph) (d : List (List Bool)) (isEnd : Nat → Bool)
    (startNode : Nat) (a b : Nat) : Prop :=
  isEnd b = false ∧ dominates_node d startNode b = true ∧ b ∈ g.succ a

/-- Number of valid node ids not yet in the list: the capacity argument that
bounds the depth of the `add_nodes` recursion. -/
def cap (N : Nat) (nodes : List Nat) : Nat :=
  ((Finset.range N).filter (fun x => x ∉ nodes)).card

/-! ### Instrumented region selection

Identical control flow to `add_nodes`/`succLoop`, additionally recording, in
order, every node on which the boundary predicate `is_end_node` is queried
(one query at the entry of every `add_nodes` call).  Used to settle how often
the predicate is evaluated per node. -/

/-- Variant of `add_nodes` carrying the boundary-query trace; the state is
(nodes so far, queried nodes so far). -/
def add_nodesT (g : Graph) (d : List (List Bool)) (isEnd : Nat → Bool)
    (startNode : Nat) : Nat → Nat → List Nat × List Nat → List Nat × List Nat
  | 0, _, st => st
  | fuel + 1, node, st =>
    if isEnd node = true then (st.1, st.2 ++ [node])
    else
      (g.succ node).foldl
        (fun st2 sc =>
          if sc ∉ st2.1 ∧ dominates_node d startNode sc = true then
            add_nodesT g d isEnd startNode fuel sc st2
          else st2)
        (st.1 ++ [node], st.2 ++ [node])

/-- The body of the successor loop of `add_nodesT`, named for the lemmas. -/
def succStepT (g : Graph) (d : List (List Bool)) (isEnd : Nat → Bool)
    (startNode fuel : Nat) (st2 : List Nat × List Nat) (sc : Nat) :
    List Nat × List Nat :=
  if sc ∉ st2.1 ∧ dominates_node d startNode sc = true then
    add_nodesT g d isEnd startNode fuel sc st2
  else st2

/-- The region-selection query with its boundary-query trace. -/
def selectT (g : Graph) (d : List (List Bool)) (isEnd : Nat → Bool)
    (startNode : Nat) : List Nat × List Nat :=
  add_nodesT g d isEnd startNode (g.size + 1) startNode ([], [])

/-! ### The checked layer

`std::vector<bool>::at` throws on an out-of-range index; we model each
checked access with `Option`, `none` standing for the exception, and model
the `&&` short-circuit of `operator|=`/`operator&=` faithfully: the right
operand is only accessed at positions where the branch condition on the left
element requires it.  Outer accesses `doms[...]` are modelled checked as
well.  `dominatorTableC_agrees` below shows the checked construction
succeeds on well-formed graphs and computes `dominatorTable`. -/

/-- Checked `operator|=`: iterate over the left operand's indices; the right
operand is read (with `at`) only where the left bit is false. -/
def bsOrC : List Bool → List Bool → Option (List Bool)
  | [], _ => some []
  | x :: xs, ys =>
    if x = true then (bsOrC xs ys.tail).map (fun r => x :: r)
    else
      match ys.head? with
      | none => none
      | some y => (bsOrC xs ys.tail).map (fun r => (x || y) :: r)

/-- Checked `operator&=`: the right operand is read only where the left bit
is true. -/
def bsAndC : List Bool → List Bool → Option (List Bool)
  | [], _ => some []
  | x :: xs, ys =>
    if x = true then
      match ys.head? with
      | none => none
      | some y => (bsAndC xs ys.tail).map (fun r => (x && y) :: r)
    else (bsAndC xs ys.tail).map (fun r => x :: r)

/-- Checked `set(int n)`: `at(n) = true`. -/
def bsSetC (v : List Bool) (n : Nat) : Option (List Bool) :=
  if n < v.length then some (v.set n true) else none

/-- Checked `test(int n)`: `at(n)`. -/
def bsTestC (v : List Bool) (n : Nat) : Option Bool := v[n]?

/-- Checked access to a row of the dominator table. -/
def getRowC (doms : List (List Bool)) (n : Nat) : Option (List Bool) := doms[n]?

/-- The checked single-predecessor update:
`t.reset(); t |= doms[node]; doms[node] &= doms[pred]; doms[node].set(node)`
with change detection; `N` is the table dimension (the length of `t`). -/
def predStepC (N : Nat) (node : Nat) (acc : List (List Bool) × Bool) (p : Nat) :
    Option (List (List Bool) × Bool) := do
  let dn ← getRowC acc.1 node
  let t ← bsOrC (List.replicate N false) dn
  let dp ← getRowC acc.1 p
  let dn1 ← bsAndC dn dp
  let dn2 ← bsSetC dn1 node
  pure (acc.1.set node dn2, acc.2 || decide (dn2 ≠ t))

/-- Checked pass body for one node. -/
def nodeStepC (g : Graph) (acc : List (List Bool) × Bool) (node : Nat) :
    Option (List (List Bool) × Bool) :=
  if node = g.entry then some acc
  else (g.pred node).foldlM (predStepC g.size node) acc

/-- Checked full pass. -/
def onePassC (g : Graph) (doms : List (List Bool)) :
    Option (List (List Bool) × Bool) :=
  (List.range g.size).foldlM (nodeStepC g) (doms, false)

/-- Checked do-while loop. -/
def domLoopC (g : Graph) : Nat → List (List Bool) → Option (List (List Bool))
  | 0, doms => some doms
  | fuel + 1, doms => do
    let p ← onePassC g doms
    if p.2 then domLoopC g fuel p.1 else pure p.1

/-- Checked initialization: all-ones rows, then
`doms[entry].reset(); doms[entry].set(entry)`. -/
def initDomsC (g : Graph) : Option (List (List Bool)) := do
  let base := List.replicate g.size (List.replicate g.size true)
  let re ← getRowC base g.entry
  let r1 ← bsSetC (List.replicate re.length false) g.entry
  pure (base.set g.entry r1)

/-- The checked `DominatorInfo` construction. -/
def dominatorTableC (g : Graph) : Option (List (List Bool)) := do
  let d0 ← initDomsC g
  domLoopC g (g.size * g.size + 1) d0

/-- Checked `dominates_node`: `doms[node2].test(node)`. -/
def dominates_nodeC (doms : List (List Bool)) (node node2 : Nat) : Option Bool := do
  let r ← getRowC doms node2
  bsTestC r node

/-! ### Concrete example graphs (spec §8 scenarios) -/

/-- Linear chain `0 → 1 → 2 → 3` with entry 0. -/
def chainG : Graph where
  size := 4
  entry := 0
  pred := fun n =>
    match n with
    | 1 => [0]
    | 2 => [1]
    | 3 => [2]
    | _ => []
  succ := fun n =>
    match n with
    | 0 => [1]
    | 1 => [2]
    | 2 => [3]
    | _ => []

/-- Diamond `0 → 1, 0 → 2, 1 → 3, 2 → 3` with entry 0. -/
def diamondG : Graph where
  size := 4
  entry := 0
  pred := fun n =>
    match n with
    | 1 => [0]
    | 2 => [0]
    | 3 => [1, 2]
    | _ => []
  succ := fun n =>
    match n with
    | 0 => [1, 2]
    | 1 => [3]
    | 2 => [3]
    | _ => []

/-- Two isolated nodes: node 1 has no predecessors and is not the entry. -/
def orphanG : Graph where
  size := 2
  entry := 0
  pred := fun _ => []
  succ := fun _ => []

/-- The diamond with each successor list reversed: same edge set, different
visiting order. -/
def diamondGrev : Graph where
  size := 4
  entry := 0
  pred := fun n =>
    match n with
    | 1 => [0]
    | 2 => [0]
    | 3 => [2, 1]
    | _ => []
  succ := fun n =>
    match n with
    | 0 => [2, 1]
    | 1 => [3]
    | 2 => [3]
    | _ => []

/-! ### Basic lemmas about the bit-vector operations -/

theorem bsTest_eq_getElem (a : List Bool) (i : Nat) : bsTest a i = a[i]?.getD false := by
  simp [bsTest, List.getD_eq_getElem?_getD]

theorem bsAnd_length (a b : List Bool) : (bsAnd a b).length = min a.length b.length :=
  List.length_zipWith _ _ _

theorem bsSet_length (a : List Bool) (n : Nat) : (bsSet a n).length = a.length :=
  List.length_set _ _ _

theorem bsTest_and_imp (a b : List Bool) (i : Nat) :
    bsTest (bsAnd a b) i = true → bsTest a i = true ∧ bsTest b i = true := by
  rw [bsTest_eq_getElem, bsTest_eq_getElem, bsTest_eq_getElem, bsAnd, List.getElem?_zipWith]
  cases ha : a[i]? <;> cases hb : b[i]? <;> simp

theorem bsTest_and_eq (a b : List Bool) (h : a.length = b.length) (i : Nat) :
    bsTest (bsAnd a b) i = (bsTest a i && bsTest b i) := by
  rw [bsTest_eq_getElem, bsTest_eq_getElem, bsTest_eq_getElem, bsAnd, List.getElem?_zipWith]
  cases ha : a[i]? with
  | none =>
    have : b[i]? = none := by
      rw [List.getElem?_eq_none_iff] at ha ⊢; omega
    simp [this]
  | some x =>
    cases hb : b[i]? with
    | none =>
      rw [List.getElem?_eq_none_iff] at hb
      have : a[i]? = none := by rw [List.getElem?_eq_none_iff]; omega
      simp [this] at ha
    | some y => simp

theorem bsTest_set_self (a : List Bool) (n : Nat) (h : n < a.length) :
    bsTest (bsSet a n) n = true := by
  rw [bsTest_eq_getElem, bsSet, List.getElem?_set_eq h]; rfl

theorem bsTest_set_ne (a : List Bool) (n i : Nat) (h : n ≠ i) :
    bsTest (bsSet a n) i = bsTest a i := by
  rw [bsTest_eq_getElem, bsTest_eq_getElem, bsSet, List.getElem?_set_ne h]

theorem getD_set_self {α : Type} (l : List α) (n : Nat) (x d : α) (h : n < l.length) :
    (l.set n x).getD n d = x := by
  rw [List.getD_eq_getElem?_getD, List.getElem?_set_eq h]; rfl

theorem getD_set_ne {α : Type} (l : List α) (n m : Nat) (x d : α) (h : n ≠ m) :
    (l.set n x).getD m d = l.getD m d := by
  rw [List.getD_eq_getElem?_getD, List.getD_eq_getElem?_getD, List.getElem?_set_ne h]

theorem getD_replicate {α : Type} (n m : Nat) (a d : α) :
    (List.replicate n a).getD m d = if m < n then a else d := by
  rw [List.getD_eq_getElem?_getD, List.getElem?_replicate]
  split <;> rfl

theorem set_getD_self {α : Type} (l : List α) (n : Nat) (d : α) :
    l.set n (l.getD n d) = l := by
  rcases Nat.lt_or_ge n l.length with h | h
  · apply List.ext_getElem?
    intro m
    rw [List.getElem?_set]
    by_cases hnm : n = m
    · subst hnm
      rw [if_pos rfl, if_pos h, List.getD_eq_getElem?_getD, List.getElem?_eq_getElem h]
      rfl
    · rw [if_neg hnm]
  · exact List.set_eq_of_length_le h

theorem bsTest_replicate_true (n i : Nat) (h : i < n) :
    bsTest (List.replicate n true) i = true := by
  rw [bsTest, getD_replicate, if_pos h]

/-! ### Pointwise comparison and true-bit counts -/

theorem bsTest_cons_zero (x : Bool) (xs : List Bool) : bsTest (x :: xs) 0 = x :=
  List.getD_cons_zero

theorem bsTest_cons_succ (x : Bool) (xs : List Bool) (i : Nat) :
    bsTest (x :: xs) (i + 1) = bsTest xs i :=
  List.getD_cons_succ

theorem count_le_of_pointwise :
    ∀ (a b : List Bool), a.length = b.length →
      (∀ i, bsTest a i = true → bsTest b i = true) →
      a.count true ≤ b.count true := by
  intro a
  induction a with
  | nil =>
    intro b _ _
    simp
  | cons x xs ih =>
    intro b hlen hpt
    cases b with
    | nil => simp at hlen
    | cons y ys =>
      have htail : ∀ i, bsTest xs i = true → bsTest ys i = true := by
        intro i hi
        have := hpt (i + 1)
        rw [bsTest_cons_succ, bsTest_cons_succ] at this
        exact this hi
      have hih := ih ys (by simpa using hlen) htail
      have hhead := hpt 0
      rw [bsTest_cons_zero, bsTest_cons_zero] at hhead
      simp only [List.count_cons]
      cases x with
      | false =>
        have hy : (if (y == true) = true then 1 else 0) ≤ 1 := by split <;> omega
        simp only [show ((false == true) = true) = False by simp, if_false]
        omega
      | true =>
        rw [hhead rfl]
        simp only [show ((true == true) = true) = True by simp, if_true]
        omega

theorem count_lt_of_pointwise_ne :
    ∀ (a b : List Bool), a.length = b.length →
      (∀ i, bsTest a i = true → bsTest b i = true) →
      a ≠ b →
      a.count true < b.count true := by
  intro a
  induction a with
  | nil =>
    intro b hlen _ hne
    cases b with
    | nil => exact absurd rfl hne
    | cons y ys => simp at hlen
  | cons x xs ih =>
    intro b hlen hpt hne
    cases b with
    | nil => simp at hlen
    | cons y ys =>
      have htail : ∀ i, bsTest xs i = true → bsTest ys i = true := by
        intro i hi
        have := hpt (i + 1)
        rw [bsTest_cons_succ, bsTest_cons_succ] at this
        exact this hi
      have hhead := hpt 0
      rw [bsTest_cons_zero, bsTest_cons_zero] at hhead
      have hlen' : xs.length = ys.length := by simpa using hlen
      simp only [List.count_cons]
      by_cases hxy : x = y
      · subst hxy
        have hne' : xs ≠ ys := by
          intro hc; exact hne (by rw [hc])
        have := ih ys hlen' htail hne'
        omega
      · cases x
        · cases y
          · exact absurd rfl hxy
          · have := count_le_of_pointwise xs ys hlen' htail
            simp
            omega
        · exact absurd (hhead rfl).symm hxy

theorem tableInv_initDoms (g : Graph) (hg : g.WF) : TableInv g (initDoms g) := by
  obtain ⟨he, -, -⟩ := hg
  have hlen : (initDoms g).length = g.size := by
    simp [initDoms]
  have hrow : ∀ n, n < g.size → (initDoms g).getD n [] =
      (if n = g.entry then bsSet (List.replicate g.size false) g.entry
       else List.replicate g.size true) := by
    intro n hn
    by_cases hne : n = g.entry
    · subst hne
      rw [if_pos rfl, initDoms, getD_set_self _ _ _ _ (by simpa using hn)]
    · rw [if_neg hne, initDoms, getD_set_ne _ _ _ _ _ (fun hc => hne hc.symm),
        getD_replicate, if_pos hn]
  refine ⟨hlen, ?_, ?_, ?_⟩
  · intro n hn
    rw [hrow n hn]
    split
    · rw [bsSet_length, List.length_replicate]
    · rw [List.length_replicate]
  · intro n hn
    rw [hrow n hn]
    split
    · next hne => subst hne; exact bsTest_set_self _ _ (by simpa using hn)
    · exact bsTest_replicate_true _ _ hn
  · intro n hn
    rw [hrow n hn]
    split
    · exact bsTest_set_self _ _ (by simpa using he)
    · exact bsTest_replicate_true _ _ he

theorem predStep_fst (node p : Nat) (acc : List (List Bool) × Bool) :
    (predStep node acc p).1 =
      acc.1.set node (bsSet (bsAnd (acc.1.getD node []) (acc.1.getD p [])) node) := rfl

theorem predStep_snd (node p : Nat) (acc : List (List Bool) × Bool) :
    (predStep node acc p).2 =
      (acc.2 || decide (bsSet (bsAnd (acc.1.getD node []) (acc.1.getD p [])) node ≠
        acc.1.getD node [])) := rfl

theorem tableInv_predStep (g : Graph) (node p : Nat)
    (hn : node < g.size) (hp : p < g.size)
    (acc : List (List Bool) × Bool) (h : TableInv g acc.1) :
    TableInv g (predStep node acc p).1 := by
  obtain ⟨hL, hRL, hSelf, hEntry⟩ := h
  have hdn : (acc.1.getD node []).length = g.size := hRL node hn
  have hdp : (acc.1.getD p []).length = g.size := hRL p hp
  have hand : (bsAnd (acc.1.getD node []) (acc.1.getD p [])).length = g.size := by
    rw [bsAnd_length, hdn, hdp, Nat.min_self]
  have hnew : (bsSet (bsAnd (acc.1.getD node []) (acc.1.getD p [])) node).length = g.size := by
    rw [bsSet_length, hand]
  rw [predStep_fst]
  refine ⟨by rw [List.length_set, hL], ?_, ?_, ?_⟩
  · intro m hm
    by_cases hmn : m = node
    · subst hmn
      rw [getD_set_self _ _ _ _ (by omega), hnew]
    · rw [getD_set_ne _ _ _ _ _ (fun hc => hmn hc.symm)]
      exact hRL m hm
  · intro m hm
    by_cases hmn : m = node
    · subst hmn
      rw [getD_set_self _ _ _ _ (by omega)]
      exact bsTest_set_self _ _ (by omega)
    · rw [getD_set_ne _ _ _ _ _ (fun hc => hmn hc.symm)]
      exact hSelf m hm
  · intro m hm
    by_cases hmn : m = node
    · subst hmn
      rw [getD_set_self _ _ _ _ (by omega)]
      by_cases hen : g.entry = m
      · rw [hen]
        exact bsTest_set_self _ _ (by omega)
      · rw [bsTest_set_ne _ _ _ (fun hc => hen hc.symm),
          bsTest_and_eq _ _ (by rw [hdn, hdp]), hEntry m hn, hEntry p hp]
        rfl
    · rw [getD_set_ne _ _ _ _ _ (fun hc => hmn hc.symm)]
      exact hEntry m hm

theorem tableInv_nodeStep (g : Graph) (hg : g.WF) (node : Nat) (hn : node < g.size)
    (acc : List (List Bool) × Bool) (h : TableInv g acc.1) :
    TableInv g (nodeStep g acc node).1 := by
  rw [nodeStep]
  split
  · exact h
  · exact List.foldlRecOn (g.pred node) (predStep node) acc h
      (fun b hb p hpmem => tableInv_predStep g node p hn (hg.2.1 node p hpmem) b hb)

theorem tableInv_onePass (g : Graph) (hg : g.WF) (doms : List (List Bool))
    (h : TableInv g doms) : TableInv g (onePass g doms).1 := by
  rw [onePass]
  exact List.foldlRecOn (List.range g.size) (nodeStep g) (doms, false) h
    (fun b hb node hmem => tableInv_nodeStep g hg node (List.mem_range.mp hmem) b hb)

theorem tableInv_domLoop (g : Graph) (hg : g.WF) :
    ∀ (fuel : Nat) (doms : List (List Bool)), TableInv g doms →
      TableInv g (domLoop g fuel doms) := by
  intro fuel
  induction fuel with
  | zero => intro doms h; exact h
  | succ fuel ih =>
    intro doms h
    rw [domLoop]
    split
    · exact ih _ (tableInv_onePass g hg doms h)
    · exact tableInv_onePass g hg doms h

theorem tableInv_dominatorTable (g : Graph) (hg : g.WF) :
    TableInv g (dominatorTable g) :=
  tableInv_domLoop g hg _ _ (tableInv_initDoms g hg)

theorem tableWeight_set :
    ∀ (l : List (List Bool)) (n : Nat) (r : List Bool), n < l.length →
      tableWeight (l.set n r) + rowWeight (l.getD n []) = tableWeight l + rowWeight r := by
  intro l
  induction l with
  | nil => intro n r h; simp at h
  | cons x xs ih =>
    intro n r h
    cases n with
    | zero =>
      simp only [List.set_cons_zero, tableWeight, List.map_cons, List.sum_cons,
        List.getD_cons_zero]
      omega
    | succ n =>
      simp only [List.set_cons_succ, tableWeight, List.map_cons, List.sum_cons,
        List.getD_cons_succ]
      have := ih n r (by simpa using h)
      simp only [tableWeight] at this
      omega

theorem stepOK_refl (q : List (List Bool) × Bool) : StepOK q q :=
  ⟨le_refl _, fun h => Or.inl h, fun h => ⟨h, rfl⟩⟩

theorem stepOK_trans {q q2 q3 : List (List Bool) × Bool}
    (h1 : StepOK q q2) (h2 : StepOK q2 q3) : StepOK q q3 := by
  obtain ⟨l1, s1, f1⟩ := h1
  obtain ⟨l2, s2, f2⟩ := h2
  refine ⟨le_trans l2 l1, ?_, ?_⟩
  · intro h3
    rcases s2 h3 with h | h
    · rcases s1 h with h' | h'
      · exact Or.inl h'
      · exact Or.inr (lt_of_le_of_lt l2 h')
    · exact Or.inr (lt_of_lt_of_le h l1)
  · intro h3
    obtain ⟨hq2, he⟩ := f2 h3
    obtain ⟨hq, he'⟩ := f1 hq2
    exact ⟨hq, he.trans he'⟩

theorem predStep_ok (g : Graph) (node p : Nat)
    (hn : node < g.size) (hp : p < g.size)
    (acc : List (List Bool) × Bool) (h : TableInv g acc.1) :
    StepOK acc (predStep node acc p) := by
  obtain ⟨hL, hRL, hSelf, hEntry⟩ := h
  have hdn : (acc.1.getD node []).length = g.size := hRL node hn
  have hdp : (acc.1.getD p []).length = g.size := hRL p hp
  have hand : (bsAnd (acc.1.getD node []) (acc.1.getD p [])).length = g.size := by
    rw [bsAnd_length, hdn, hdp, Nat.min_self]
  have hnew : (bsSet (bsAnd (acc.1.getD node []) (acc.1.getD p [])) node).length = g.size := by
    rw [bsSet_length, hand]
  by_cases heq : bsSet (bsAnd (acc.1.getD node []) (acc.1.getD p [])) node = acc.1.getD node []
  · have hst : (predStep node acc p).1 = acc.1 := by
      rw [predStep_fst, heq, set_getD_self]
    have hfl : (predStep node acc p).2 = acc.2 := by
      rw [predStep_snd, decide_eq_false (by simpa using heq), Bool.or_false]
    refine ⟨by rw [hst], ?_, ?_⟩
    · intro ht; rw [hfl] at ht; exact Or.inl ht
    · intro hf; rw [hfl] at hf; exact ⟨hf, by rw [hst]⟩
  · have hpt : ∀ i, bsTest (bsSet (bsAnd (acc.1.getD node []) (acc.1.getD p [])) node) i = true →
        bsTest (acc.1.getD node []) i = true := by
      intro i hi
      by_cases hin : node = i
      · subst hin; exact hSelf node hn
      · rw [bsTest_set_ne _ _ _ hin] at hi
        exact (bsTest_and_imp _ _ _ hi).1
    have hlt : rowWeight (bsSet (bsAnd (acc.1.getD node []) (acc.1.getD p [])) node) <
        rowWeight (acc.1.getD node []) :=
      count_lt_of_pointwise_ne _ _ (by rw [hnew, hdn]) hpt heq
    have hw := tableWeight_set acc.1 node
      (bsSet (bsAnd (acc.1.getD node []) (acc.1.getD p [])) node) (by omega)
    have hwlt : tableWeight (predStep node acc p).1 < tableWeight acc.1 := by
      rw [predStep_fst]; omega
    have hfl : (predStep node acc p).2 = true := by
      rw [predStep_snd, decide_eq_true heq, Bool.or_true]
    exact ⟨le_of_lt hwlt, fun _ => Or.inr hwlt, fun hf => by rw [hfl] at hf; cases hf⟩

theorem nodeStep_ok (g : Graph) (hg : g.WF) (node : Nat) (hn : node < g.size)
    (acc : List (List Bool) × Bool) (h : TableInv g acc.1) :
    StepOK acc (nodeStep g acc node) ∧ TableInv g (nodeStep g acc node).1 := by
  rw [nodeStep]
  split
  · exact ⟨stepOK_refl acc, h⟩
  · exact List.foldlRecOn
      (motive := fun q => StepOK acc q ∧ TableInv g q.1)
      (g.pred node) (predStep node) acc ⟨stepOK_refl acc, h⟩
      (fun b hb p hpmem =>
        ⟨stepOK_trans hb.1 (predStep_ok g node p hn (hg.2.1 node p hpmem) b hb.2),
         tableInv_predStep g node p hn (hg.2.1 node p hpmem) b hb.2⟩)

theorem onePass_ok (g : Graph) (hg : g.WF) (doms : List (List Bool))
    (h : TableInv g doms) : StepOK (doms, false) (onePass g doms) := by
  rw [onePass]
  exact (List.foldlRecOn
    (motive := fun q => StepOK (doms, false) q ∧ TableInv g q.1)
    (List.range g.size) (nodeStep g) (doms, false)
    ⟨stepOK_refl _, h⟩
    (fun b hb node hmem =>
      ⟨stepOK_trans hb.1 ((nodeStep_ok g hg node (List.mem_range.mp hmem) b hb.2).1),
       (nodeStep_ok g hg node (List.mem_range.mp hmem) b hb.2).2⟩)).1

theorem onePass_false_eq (g : Graph) (hg : g.WF) (doms : List (List Bool))
    (h : TableInv g doms) (hf : (onePass g doms).2 = false) :
    (onePass g doms).1 = doms :=
  ((onePass_ok g hg doms h).2.2 hf).2

theorem onePass_true_lt (g : Graph) (hg : g.WF) (doms : List (List Bool))
    (h : TableInv g doms) (ht : (onePass g doms).2 = true) :
    tableWeight (onePass g doms).1 < tableWeight doms := by
  rcases (onePass_ok g hg doms h).2.1 ht with hc | hc
  · cases hc
  · exact hc

theorem domLoop_fix (g : Graph) (hg : g.WF) :
    ∀ (fuel : Nat) (doms : List (List Bool)), TableInv g doms →
      tableWeight doms < fuel →
      (onePass g (domLoop g fuel doms)).2 = false := by
  intro fuel
  induction fuel with
  | zero => intro doms _ hw; omega
  | succ fuel ih =>
    intro doms h hw
    rw [domLoop]
    split
    · next ht =>
      exact ih _ (tableInv_onePass g hg doms h)
        (lt_of_lt_of_le (onePass_true_lt g hg doms h ht) (by omega))
    · next hf =>
      have hfx : (onePass g doms).2 = false := by
        revert hf
        cases (onePass g doms).2 <;> simp
      rw [onePass_false_eq g hg doms h hfx]
      exact hfx

theorem tableWeight_initDoms (g : Graph) (hg : g.WF) :
    tableWeight (initDoms g) ≤ g.size * g.size := by
  obtain ⟨he, -, -⟩ := hg
  have hbase : tableWeight (List.replicate g.size (List.replicate g.size true)) =
      g.size * g.size := by
    rw [tableWeight, List.map_replicate, List.sum_replicate, smul_eq_mul, rowWeight,
      List.count_replicate]
    simp
  have hw := tableWeight_set (List.replicate g.size (List.replicate g.size true))
    g.entry (bsSet (List.replicate g.size false) g.entry) (by simpa using he)
  have hold : (List.replicate g.size (List.replicate g.size true)).getD g.entry [] =
      List.replicate g.size true := by
    rw [getD_replicate, if_pos he]
  have holdw : rowWeight (List.replicate g.size true) = g.size := by
    rw [rowWeight, List.count_replicate]; simp
  have hnw : rowWeight (bsSet (List.replicate g.size false) g.entry) ≤ g.size := by
    calc rowWeight (bsSet (List.replicate g.size false) g.entry) ≤
        (bsSet (List.replicate g.size false) g.entry).length := List.count_le_length _ _
    _ = g.size := by rw [bsSet_length, List.length_replicate]
  rw [hold, holdw, hbase] at hw
  rw [initDoms] at *
  omega

theorem dominatorTable_fix (g : Graph) (hg : g.WF) :
    (onePass g (dominatorTable g)).2 = false := by
  rw [dominatorTable]
  exact domLoop_fix g hg _ _ (tableInv_initDoms g hg)
    (lt_of_le_of_lt (tableWeight_initDoms g hg) (by omega))

/-! ### Rows without predecessors are never updated -/

theorem nodeStep_row_of_no_pred (g : Graph) (m : Nat) (hme : m ≠ g.entry)
    (hpred : g.pred m = []) (acc : List (List Bool) × Bool) (node : Nat) :
    ((nodeStep g acc node).1).getD m [] = acc.1.getD m [] := by
  rw [nodeStep]
  split
  · rfl
  · by_cases hnm : node = m
    · subst hnm
      rw [hpred]
      rfl
    · exact List.foldlRecOn (motive := fun q => q.1.getD m [] = acc.1.getD m [])
        (g.pred node) (predStep node) acc rfl
        (fun b hb p _ => by
          show (predStep node b p).1.getD m [] = acc.1.getD m []
          rw [predStep_fst, getD_set_ne _ _ _ _ _ hnm]; exact hb)

theorem onePass_row_of_no_pred (g : Graph) (m : Nat) (hme : m ≠ g.entry)
    (hpred : g.pred m = []) (doms : List (List Bool)) :
    ((onePass g doms).1).getD m [] = doms.getD m [] := by
  rw [onePass]
  exact List.foldlRecOn (motive := fun q => q.1.getD m [] = doms.getD m [])
    (List.range g.size) (nodeStep g) (doms, false) rfl
    (fun b hb node _ => by
      show (nodeStep g b node).1.getD m [] = doms.getD m []
      rw [nodeStep_row_of_no_pred g m hme hpred b node]; exact hb)

theorem domLoop_row_of_no_pred (g : Graph) (m : Nat) (hme : m ≠ g.entry)
    (hpred : g.pred m = []) :
    ∀ (fuel : Nat) (doms : List (List Bool)),
      (domLoop g fuel doms).getD m [] = doms.getD m [] := by
  intro fuel
  induction fuel with
  | zero => intro doms; rfl
  | succ fuel ih =>
    intro doms
    rw [domLoop]
    split
    · rw [ih, onePass_row_of_no_pred g m hme hpred]
    · rw [onePass_row_of_no_pred g m hme hpred]

theorem dominatorTable_row_of_no_pred (g : Graph) (hg : g.WF) (m : Nat)
    (hm : m < g.size) (hme : m ≠ g.entry) (hpred : g.pred m = []) :
    (dominatorTable g).getD m [] = List.replicate g.size true := by
  rw [dominatorTable, domLoop_row_of_no_pred g m hme hpred, initDoms,
    getD_set_ne _ _ _ _ _ (fun hc => hme hc.symm), getD_replicate, if_pos hm]

/-! ### Per-row monotone shrink within one pass -/

theorem predStep_row_le (g : Graph) (node p : Nat)
    (hn : node < g.size) (hp : p < g.size)
    (acc : List (List Bool) × Bool) (h : TableInv g acc.1) (m : Nat) :
    rowWeight (((predStep node acc p).1).getD m []) ≤ rowWeight (acc.1.getD m []) := by
  obtain ⟨hL, hRL, hSelf, hEntry⟩ := h
  by_cases hmn : m = node
  · subst hmn
    have hdn : (acc.1.getD m []).length = g.size := hRL m hn
    have hdp : (acc.1.getD p []).length = g.size := hRL p hp
    have hnew : (bsSet (bsAnd (acc.1.getD m []) (acc.1.getD p [])) m).length = g.size := by
      rw [bsSet_length, bsAnd_length, hdn, hdp, Nat.min_self]
    rw [predStep_fst, getD_set_self _ _ _ _ (by omega)]
    refine count_le_of_pointwise _ _ (by rw [hnew, hdn]) ?_
    intro i hi
    by_cases him : m = i
    · subst him; exact hSelf m hn
    · rw [bsTest_set_ne _ _ _ him] at hi
      exact (bsTest_and_imp _ _ _ hi).1
  · rw [predStep_fst, getD_set_ne _ _ _ _ _ (fun hc => hmn hc.symm)]

theorem nodeStep_row_le (g : Graph) (hg : g.WF) (node : Nat) (hn : node < g.size)
    (acc : List (List Bool) × Bool) (h : TableInv g acc.1) (m : Nat) :
    rowWeight (((nodeStep g acc node).1).getD m []) ≤ rowWeight (acc.1.getD m []) := by
  rw [nodeStep]
  split
  · exact le_refl _
  · exact (List.foldlRecOn
      (motive := fun q => TableInv g q.1 ∧
        rowWeight (q.1.getD m []) ≤ rowWeight (acc.1.getD m []))
      (g.pred node) (predStep node) acc ⟨h, le_refl _⟩
      (fun b hb p hpmem =>
        ⟨tableInv_predStep g node p hn (hg.2.1 node p hpmem) b hb.1,
         le_trans (predStep_row_le g node p hn (hg.2.1 node p hpmem) b hb.1 m) hb.2⟩)).2

theorem onePass_row_le (g : Graph) (hg : g.WF) (doms : List (List Bool))
    (h : TableInv g doms) (m : Nat) :
    rowWeight (((onePass g doms).1).getD m []) ≤ rowWeight (doms.getD m []) := by
  rw [onePass]
  exact (List.foldlRecOn
    (motive := fun q => TableInv g q.1 ∧
      rowWeight (q.1.getD m []) ≤ rowWeight (doms.getD m []))
    (List.range g.size) (nodeStep g) (doms, false) ⟨h, le_refl _⟩
    (fun b hb node hmem =>
      ⟨tableInv_nodeStep g hg node (List.mem_range.mp hmem) b hb.1,
       le_trans (nodeStep_row_le g hg node (List.mem_range.mp hmem) b hb.1 m) hb.2⟩)).2

/-- No update adds a bit other than the updated node's own bit, on any state
whatsoever. -/
theorem predStep_no_new_bit (doms : List (List Bool)) (flag : Bool)
    (node p i : Nat)
    (h : bsTest (((predStep node (doms, flag) p).1).getD node []) i = true) :
    bsTest (doms.getD node []) i = true ∨ i = node := by
  by_cases hin : i = node
  · exact Or.inr hin
  · left
    rcases Nat.lt_or_ge node doms.length with hl | hl
    · rw [predStep_fst, getD_set_self _ _ _ _ hl,
        bsTest_set_ne _ _ _ (fun hc => hin hc.symm)] at h
      exact (bsTest_and_imp _ _ _ h).1
    · rw [predStep_fst, List.set_eq_of_length_le hl] at h
      exact h

/-! ### Reachability -/

theorem reaches_lt (g : Graph) (hg : g.WF) (n : Nat) (h : Reaches g g.entry n) :
    n < g.size := by
  induction h with
  | refl => exact hg.1
  | tail _ he _ => exact hg.2.2 _ _ he

/-! ### Well-formedness of the example graphs -/

theorem chainG_WF : chainG.WF := by
  refine ⟨by decide, ?_, ?_⟩ <;>
    · intro n x hx
      rcases n with _ | _ | _ | _ | n <;> simp_all [chainG] <;> omega

theorem diamondG_WF : diamondG.WF := by
  refine ⟨by decide, ?_, ?_⟩ <;>
    · intro n x hx
      rcases n with _ | _ | _ | _ | n <;> simp_all [diamondG] <;> omega

theorem diamondGrev_WF : diamondGrev.WF := by
  refine ⟨by decide, ?_, ?_⟩ <;>
    · intro n x hx
      rcases n with _ | _ | _ | _ | n <;> simp_all [diamondGrev] <;> omega

theorem orphanG_WF : orphanG.WF := by
  refine ⟨by decide, ?_, ?_⟩ <;> intro n x hx <;> simp [orphanG] at hx

/-! ### Claim C2 -/

/-- C2: For every graph, dominance table, and boundary predicate, if the
boundary predicate is true on the start node, region selection returns the
empty set — nothing at all, the start node included, is added. -/
theorem C2_boundary_start_empty (g : Graph) (d : List (List Bool))
    (isEnd : Nat → Bool) (s : Nat) (h : isEnd s = true) :
    select g d isEnd s = [] := by
  simp [select, add_nodes, h]

theorem C2_witness :
    (fun n => decide (n = 0)) 0 = true ∧
      select chainG (dominatorTable chainG) (fun n => decide (n = 0)) 0 = [] :=
  ⟨by decide, C2_boundary_start_empty chainG (dominatorTable chainG)
    (fun n => decide (n = 0)) 0 (by decide)⟩

/-! ### Claim C4 -/

/-- C4: Self-dominance — after the dominance table is constructed for any
well-formed graph, every valid node id `n` satisfies `dominates(n, n)`. -/
theorem C4_self_dominance (g : Graph) (hg : g.WF) (n : Nat) (hn : n < g.size) :
    dominates_node (dominatorTable g) n n = true :=
  (tableInv_dominatorTable g hg).2.2.1 n hn

theorem C4_witness :
    chainG.WF ∧ 2 < chainG.size ∧
      dominates_node (dominatorTable chainG) 2 2 = true :=
  ⟨chainG_WF, by decide, C4_self_dominance chainG chainG_WF 2 (by decide)⟩

/-! ### Claim C5 -/

/-- C5: Entry dominates all reachable nodes — after construction, every node
`n` reachable from the entry node along successor edges satisfies
`dominates(entry, n)`. -/
theorem C5_entry_dominates (g : Graph) (hg : g.WF) (n : Nat)
    (h : Reaches g g.entry n) :
    dominates_node (dominatorTable g) g.entry n = true :=
  (tableInv_dominatorTable g hg).2.2.2 n (reaches_lt g hg n h)

theorem C5_witness :
    chainG.WF ∧ Reaches chainG chainG.entry 2 ∧
      dominates_node (dominatorTable chainG) chainG.entry 2 = true := by
  have h1 : Relation.ReflTransGen (fun x y => y ∈ chainG.succ x) 0 1 :=
    Relation.ReflTransGen.single (by simp [chainG])
  have h2 : Relation.ReflTransGen (fun x y => y ∈ chainG.succ x) 0 2 :=
    h1.tail (by simp [chainG])
  have hreach : Reaches chainG chainG.entry 2 := h2
  exact ⟨chainG_WF, hreach, C5_entry_dominates chainG chainG_WF 2 hreach⟩

/-! ### Claim C6 -/

/-- C6: Termination of the dominator fixed-point computation — (a) no single
update ever adds a bit other than the updated node's own bit to that node's
dominator set, (b) within the invariant every node's dominator set is
non-increasing across one full pass, and (c) the do-while loop reaches its
exit condition: the pass after the modelled loop finishes reports no
change, i.e. the loop exits after finitely many passes. -/
theorem C6_termination (g : Graph) (hg : g.WF) :
    (∀ (doms : List (List Bool)) (flag : Bool) (node p i : Nat),
        bsTest (((predStep node (doms, flag) p).1).getD node []) i = true →
        bsTest (doms.getD node []) i = true ∨ i = node) ∧
      (∀ doms : List (List Bool), TableInv g doms → ∀ m : Nat,
        rowWeight (((onePass g doms).1).getD m []) ≤ rowWeight (doms.getD m [])) ∧
      (onePass g (dominatorTable g)).2 = false :=
  ⟨predStep_no_new_bit, fun doms h m => onePass_row_le g hg doms h m,
    dominatorTable_fix g hg⟩

theorem C6_witness :
    chainG.WF ∧ (onePass chainG (dominatorTable chainG)).2 = false :=
  ⟨chainG_WF, (C6_termination chainG chainG_WF).2.2⟩

/-! ### Claim C7 -/

/-- C7: A non-entry node with zero predecessors keeps the full all-ones
dominator set after construction — every node dominates it, its set never
changed from initialization. -/
theorem C7_no_pred_all_ones (g : Graph) (hg : g.WF) (m : Nat) (hm : m < g.size)
    (hme : m ≠ g.entry) (hpred : g.pred m = []) :
    (dominatorTable g).getD m [] = List.replicate g.size true ∧
      ∀ k, k < g.size → dominates_node (dominatorTable g) k m = true := by
  have hrow := dominatorTable_row_of_no_pred g hg m hm hme hpred
  refine ⟨hrow, fun k hk => ?_⟩
  show bsTest ((dominatorTable g).getD m []) k = true
  rw [hrow]
  exact bsTest_replicate_true _ _ hk

theorem C7_witness :
    orphanG.WF ∧ 1 < orphanG.size ∧ (1 : Nat) ≠ orphanG.entry ∧
      orphanG.pred 1 = [] ∧
      ((dominatorTable orphanG).getD 1 [] = List.replicate orphanG.size true ∧
        ∀ k, k < orphanG.size → dominates_node (dominatorTable orphanG) k 1 = true) :=
  ⟨orphanG_WF, by decide, by decide, rfl,
    C7_no_pred_all_ones orphanG orphanG_WF 1 (by decide) (by decide) rfl⟩

/-! ### Unfolding equations for the traversal -/

theorem add_nodes_zero (g : Graph) (d : List (List Bool)) (isEnd : Nat → Bool)
    (s node : Nat) (nodes : List Nat) :
    add_nodes g d isEnd s 0 node nodes = nodes := rfl

theorem add_nodes_succ (g : Graph) (d : List (List Bool)) (isEnd : Nat → Bool)
    (s node fuel : Nat) (nodes : List Nat) :
    add_nodes g d isEnd s (fuel + 1) node nodes =
      if isEnd node = true then nodes
      else (g.succ node).foldl (succStep g d isEnd s fuel) (nodes ++ [node]) := rfl

theorem succStep_eq (g : Graph) (d : List (List Bool)) (isEnd : Nat → Bool)
    (s fuel : Nat) (ns : List Nat) (sc : Nat) :
    succStep g d isEnd s fuel ns sc =
      if sc ∉ ns ∧ dominates_node d s sc = true then
        add_nodes g d isEnd s fuel sc ns
      else ns := rfl

/-! ### The traversal only appends -/

theorem add_nodes_sublist (g : Graph) (d : List (List Bool)) (isEnd : Nat → Bool)
    (s : Nat) :
    ∀ (fuel node : Nat) (nodes : List Nat),
      nodes.Sublist (add_nodes g d isEnd s fuel node nodes) := by
  intro fuel
  induction fuel with
  | zero =>
    intro node nodes
    rw [add_nodes_zero]
  | succ fuel ih =>
    intro node nodes
    rw [add_nodes_succ]
    split
    · exact List.Sublist.refl nodes
    · refine List.Sublist.trans (List.sublist_append_left nodes [node]) ?_
      exact List.foldlRecOn (motive := fun ns2 => (nodes ++ [node]).Sublist ns2)
        (g.succ node) (succStep g d isEnd s fuel) (nodes ++ [node])
        (List.Sublist.refl _)
        (fun b hb sc _ => by
          show (nodes ++ [node]).Sublist (succStep g d isEnd s fuel b sc)
          rw [succStep_eq]
          split
          · exact List.Sublist.trans hb (ih sc b)
          · exact hb)

theorem succStep_sublist (g : Graph) (d : List (List Bool)) (isEnd : Nat → Bool)
    (s fuel : Nat) (ns : List Nat) (sc : Nat) :
    ns.Sublist (succStep g d isEnd s fuel ns sc) := by
  rw [succStep_eq]
  split
  · exact add_nodes_sublist g d isEnd s fuel sc ns
  · exact List.Sublist.refl ns

/-! ### Soundness: every selected node is reached along allowed edges -/

theorem add_nodes_sound (g : Graph) (d : List (List Bool)) (isEnd : Nat → Bool)
    (s : Nat) :
    ∀ (fuel node : Nat) (nodes : List Nat) (x : Nat),
      x ∈ add_nodes g d isEnd s fuel node nodes →
      x ∈ nodes ∨ (isEnd node = false ∧
        Relation.ReflTransGen (StepEdge g d isEnd s) node x) := by
  intro fuel
  induction fuel with
  | zero =>
    intro node nodes x hx
    rw [add_nodes_zero] at hx
    exact Or.inl hx
  | succ fuel ih =>
    intro node nodes x hx
    rw [add_nodes_succ] at hx
    split at hx
    · exact Or.inl hx
    · next hend =>
      have hend' : isEnd node = false := by
        revert hend; cases isEnd node <;> simp
      have hfold : ∀ (l : List Nat) (ns : List Nat),
          (∀ b ∈ l, b ∈ g.succ node) →
          (∀ y ∈ ns, y ∈ nodes ++ [node] ∨
            Relation.ReflTransGen (StepEdge g d isEnd s) node y) →
          ∀ y ∈ l.foldl (succStep g d isEnd s fuel) ns,
            y ∈ nodes ++ [node] ∨
              Relation.ReflTransGen (StepEdge g d isEnd s) node y := by
        intro l
        induction l with
        | nil =>
          intro ns _ hns y hy
          exact hns y hy
        | cons sc rest ihl =>
          intro ns hl hns y hy
          rw [List.foldl_cons] at hy
          refine ihl _ (fun b hb => hl b (List.mem_cons_of_mem _ hb)) ?_ y hy
          intro z hz
          rw [succStep_eq] at hz
          split at hz
          · next hguard =>
            rcases ih sc ns z hz with hzin | ⟨hsce, hrtg⟩
            · exact hns z hzin
            · exact Or.inr (Relation.ReflTransGen.head
                ⟨hsce, hguard.2, hl sc (List.mem_cons_self _ _)⟩ hrtg)
          · exact hns z hz
      rcases hfold (g.succ node) (nodes ++ [node]) (fun b hb => hb)
          (fun y hy => Or.inl hy) x hx with hin | hr
      · rcases List.mem_append.mp hin with h1 | h2
        · exact Or.inl h1
        · have hxn : x = node := by simpa using h2
          subst hxn
          exact Or.inr ⟨hend', Relation.ReflTransGen.refl⟩
      · exact Or.inr ⟨hend', hr⟩

/-! ### Claim C3 -/

/-- C3: Region confinement — every node `r` in the region selected from a
valid start node `s` (over the dominance table built for the graph) satisfies
`dominates(s, r)`. -/
theorem C3_region_confinement (g : Graph) (hg : g.WF) (isEnd : Nat → Bool)
    (s : Nat) (hs : s < g.size) (r : Nat)
    (hr : r ∈ select g (dominatorTable g) isEnd s) :
    dominates_node (dominatorTable g) s r = true := by
  rcases add_nodes_sound g (dominatorTable g) isEnd s (g.size + 1) s [] r hr
    with hin | ⟨-, hrtg⟩
  · simp at hin
  · rcases Relation.ReflTransGen.cases_tail hrtg with heq | ⟨c, -, hedge⟩
    · rw [heq]
      exact (tableInv_dominatorTable g hg).2.2.1 s hs
    · exact hedge.2.1

theorem C3_witness :
    chainG.WF ∧ 0 < chainG.size ∧
      3 ∈ select chainG (dominatorTable chainG) (fun _ => false) 0 ∧
      dominates_node (dominatorTable chainG) 0 3 = true :=
  ⟨chainG_WF, by decide, by decide,
    C3_region_confinement chainG chainG_WF (fun _ => false) 0 (by decide) 3 (by decide)⟩

/-! ### Claim C1 -/

/-- C1 (counterexample): on the chain `0→1→2→3` with node 2 the only
boundary node, the region selected from 0 is not `{0, 1, 2}` — `add_nodes`
returns at a boundary node before pushing it, so 2 is not added. -/
theorem C1_counterexample :
    ¬ (select chainG (dominatorTable chainG) (fun n => decide (n = 2)) 0).toFinset
        = ({0, 1, 2} : Finset Nat) := by
  decide

/-- C1 (amended): on the chain `0→1→2→3` with node 2 the only boundary node,
selecting from 0 returns exactly `[0, 1]`: the boundary node 2 is not added
to the region and its successors are not followed, so 2 and 3 are both
excluded. -/
theorem C1_chain_boundary_region :
    select chainG (dominatorTable chainG) (fun n => decide (n = 2)) 0 = [0, 1] := by
  decide

/-! ### The traced traversal -/

theorem add_nodesT_zero (g : Graph) (d : List (List Bool)) (isEnd : Nat → Bool)
    (s node : Nat) (st : List Nat × List Nat) :
    add_nodesT g d isEnd s 0 node st = st := rfl

theorem add_nodesT_succ (g : Graph) (d : List (List Bool)) (isEnd : Nat → Bool)
    (s node fuel : Nat) (st : List Nat × List Nat) :
    add_nodesT g d isEnd s (fuel + 1) node st =
      if isEnd node = true then (st.1, st.2 ++ [node])
      else (g.succ node).foldl (succStepT g d isEnd s fuel)
        (st.1 ++ [node], st.2 ++ [node]) := rfl

theorem succStepT_eq (g : Graph) (d : List (List Bool)) (isEnd : Nat → Bool)
    (s fuel : Nat) (st2 : List Nat × List Nat) (sc : Nat) :
    succStepT g d isEnd s fuel st2 sc =
      if sc ∉ st2.1 ∧ dominates_node d s sc = true then
        add_nodesT g d isEnd s fuel sc st2
      else st2 := rfl

/-- The traced traversal computes the same node list as `add_nodes`. -/
theorem add_nodesT_fst (g : Graph) (d : List (List Bool)) (isEnd : Nat → Bool)
    (s : Nat) :
    ∀ (fuel node : Nat) (st : List Nat × List Nat),
      (add_nodesT g d isEnd s fuel node st).1 =
        add_nodes g d isEnd s fuel node st.1 := by
  intro fuel
  induction fuel with
  | zero =>
    intro node st
    rw [add_nodesT_zero, add_nodes_zero]
  | succ fuel ih =>
    intro node st
    rw [add_nodesT_succ, add_nodes_succ]
    split
    · rfl
    · have hfold : ∀ (l : List Nat) (st2 : List Nat × List Nat),
          (l.foldl (succStepT g d isEnd s fuel) st2).1 =
            l.foldl (succStep g d isEnd s fuel) st2.1 := by
        intro l
        induction l with
        | nil => intro st2; rfl
        | cons sc rest ihl =>
          intro st2
          rw [List.foldl_cons, List.foldl_cons, ihl, succStepT_eq, succStep_eq]
          split
          · rw [ih sc st2]
          · rfl
      exact hfold (g.succ node) (st.1 ++ [node], st.2 ++ [node])

theorem selectT_fst (g : Graph) (d : List (List Bool)) (isEnd : Nat → Bool)
    (s : Nat) : (selectT g d isEnd s).1 = select g d isEnd s :=
  add_nodesT_fst g d isEnd s (g.size + 1) s ([], [])

/-- The per-node query bound maintained by the traced traversal: a node on
which the boundary predicate is false is queried at most once, and only if it
has been added to the node list. -/
theorem add_nodesT_count (g : Graph) (d : List (List Bool)) (isEnd : Nat → Bool)
    (s : Nat) :
    ∀ (fuel node : Nat) (st : List Nat × List Nat),
      node ∉ st.1 →
      (∀ x, isEnd x = false →
        st.2.count x ≤ (if x ∈ st.1 then 1 else 0)) →
      (∀ x, isEnd x = false →
        (add_nodesT g d isEnd s fuel node st).2.count x ≤
          (if x ∈ (add_nodesT g d isEnd s fuel node st).1 then 1 else 0)) := by
  intro fuel
  induction fuel with
  | zero =>
    intro node st _ hQ
    rw [add_nodesT_zero]
    exact hQ
  | succ fuel ih =>
    intro node st hnode hQ
    rw [add_nodesT_succ]
    split
    · next hend =>
      intro x hx
      have hxn : x ≠ node := by
        intro hc; rw [hc, hend] at hx; cases hx
      simp only [List.count_append, List.count_cons, List.count_nil]
      have : ¬ ((node == x) = true) := by simpa using Ne.symm hxn
      rw [if_neg this]
      simpa using hQ x hx
    · next hend =>
      have hend' : isEnd node = false := by
        revert hend; cases isEnd node <;> simp
      have hQ' : ∀ x, isEnd x = false →
          (st.2 ++ [node]).count x ≤ (if x ∈ st.1 ++ [node] then 1 else 0) := by
        intro x hx
        simp only [List.count_append, List.count_cons, List.count_nil, List.mem_append,
          List.mem_singleton]
        by_cases hxn : x = node
        · subst hxn
          have h0 : st.2.count x = 0 := by
            have := hQ x hx
            rw [if_neg hnode] at this
            omega
          rw [h0, if_pos (Or.inr rfl)]
          simp
        · have : ¬ ((node == x) = true) := by simpa using Ne.symm hxn
          rw [if_neg this]
          have := hQ x hx
          by_cases hin : x ∈ st.1
          · rw [if_pos (Or.inl hin)]
            rw [if_pos hin] at this
            omega
          · rw [if_neg (by rintro (h | h); exact hin h; exact hxn h)]
            rw [if_neg hin] at this
            omega
      exact List.foldlRecOn
        (motive := fun st2 => ∀ x, isEnd x = false →
          st2.2.count x ≤ (if x ∈ st2.1 then 1 else 0))
        (g.succ node) (succStepT g d isEnd s fuel)
        (st.1 ++ [node], st.2 ++ [node]) hQ'
        (fun b hb sc _ => by
          show ∀ x, isEnd x = false →
            (succStepT g d isEnd s fuel b sc).2.count x ≤
              (if x ∈ (succStepT g d isEnd s fuel b sc).1 then 1 else 0)
          rw [succStepT_eq]
          split
          · next hguard => exact ih sc b hguard.1 hb
          · exact hb)

/-! ### Claim C8 -/

/-- C8 (counterexample): on the diamond `0→1, 0→2, 1→3, 2→3` with boundary
node 3, one region selection from 0 queries the boundary predicate on node 3
twice (once from 1 and once from 2, since 3 is never added to the node
list), refuting "at most once per node". -/
theorem C8_counterexample :
    ¬ ((selectT diamondG (dominatorTable diamondG)
        (fun n => decide (n = 3)) 0).2.count 3 ≤ 1) := by
  decide

/-- C8 (amended): during a single region-selection query the boundary
predicate is evaluated at most once per node on which it is false
(equivalently, per node added to the region); only boundary nodes can be
queried more than once (once per region edge reaching them). -/
theorem C8_nonboundary_queried_once (g : Graph) (d : List (List Bool))
    (isEnd : Nat → Bool) (s : Nat) (x : Nat) (hx : isEnd x = false) :
    ((selectT g d isEnd s).2).count x ≤ 1 := by
  show ((add_nodesT g d isEnd s (g.size + 1) s ([], [])).2).count x ≤ 1
  have h := add_nodesT_count g d isEnd s (g.size + 1) s ([], [])
    (by simp) (by intro x _; simp) x hx
  split at h
  · exact h
  · omega

theorem C8_witness :
    (fun n => decide (n = 3)) 2 = false ∧
      ((selectT diamondG (dominatorTable diamondG)
        (fun n => decide (n = 3)) 0).2).count 2 ≤ 1 :=
  ⟨by decide, C8_nonboundary_queried_once diamondG (dominatorTable diamondG)
    (fun n => decide (n = 3)) 0 2 (by decide)⟩

/-! ### Capacity lemmas -/

theorem cap_nil (N : Nat) : cap N [] = N := by
  simp [cap]

theorem cap_le_of_sublist (N : Nat) (ns ms : List Nat) (h : ns.Sublist ms) :
    cap N ms ≤ cap N ns := by
  apply Finset.card_le_card
  intro x hx
  simp only [cap, Finset.mem_filter, Finset.mem_range] at hx ⊢
  exact ⟨hx.1, fun hc => hx.2 (h.subset hc)⟩

theorem cap_append_lt (N : Nat) (ns : List Nat) (node : Nat)
    (hn : node < N) (hmem : node ∉ ns) :
    cap N (ns ++ [node]) < cap N ns := by
  have herase : (Finset.range N).filter (fun x => x ∉ ns ++ [node]) =
      ((Finset.range N).filter (fun x => x ∉ ns)).erase node := by
    ext x
    simp only [Finset.mem_filter, Finset.mem_range, Finset.mem_erase, List.mem_append,
      List.mem_singleton]
    constructor
    · rintro ⟨h1, h2⟩
      exact ⟨fun hc => h2 (Or.inr hc), h1, fun hc => h2 (Or.inl hc)⟩
    · rintro ⟨h1, h2, h3⟩
      exact ⟨h2, by rintro (hc | hc); exact h3 hc; exact h1 hc⟩
  rw [cap, cap, herase]
  exact Finset.card_erase_lt_of_mem (by
    simp only [Finset.mem_filter, Finset.mem_range]
    exact ⟨hn, hmem⟩)

/-! ### The successor fold only appends -/

theorem foldl_succStep_sublist (g : Graph) (d : List (List Bool))
    (isEnd : Nat → Bool) (s fuel : Nat) :
    ∀ (l : List Nat) (ns : List Nat),
      ns.Sublist (l.foldl (succStep g d isEnd s fuel) ns) := by
  intro l
  induction l with
  | nil => intro ns; exact List.Sublist.refl ns
  | cons sc rest ih =>
    intro ns
    rw [List.foldl_cons]
    exact List.Sublist.trans (succStep_sublist g d isEnd s fuel ns sc) (ih _)

/-! ### Completeness: with sufficient fuel the traversal adds every
non-boundary dominated successor it sees, and its result is closed under the
allowed edges -/

theorem foldl_cover_closed (g : Graph) (d : List (List Bool)) (isEnd : Nat → Bool)
    (s fuel : Nat)
    (hA : ∀ (node : Nat) (ns : List Nat),
      node ∉ ns → node < g.size → fuel ≥ cap g.size ns + 1 →
      (isEnd node = false → node ∈ add_nodes g d isEnd s fuel node ns) ∧
      (∀ a ∈ add_nodes g d isEnd s fuel node ns, a ∉ ns →
        ∀ c, StepEdge g d isEnd s a c → c ∈ add_nodes g d isEnd s fuel node ns)) :
    ∀ (l : List Nat), (∀ b ∈ l, b < g.size) →
      ∀ ns2 : List Nat, fuel ≥ cap g.size ns2 + 1 →
      (∀ b ∈ l, isEnd b = false → dominates_node d s b = true →
        b ∈ l.foldl (succStep g d isEnd s fuel) ns2) ∧
      (∀ a ∈ l.foldl (succStep g d isEnd s fuel) ns2, a ∉ ns2 →
        ∀ c, StepEdge g d isEnd s a c →
          c ∈ l.foldl (succStep g d isEnd s fuel) ns2) := by
  intro l
  induction l with
  | nil =>
    intro _ ns2 _
    refine ⟨fun b hb => absurd hb (List.not_mem_nil b), ?_⟩
    intro a ha hans _ _
    exact absurd ha fun _ => hans ha
  | cons sc rest ih =>
    intro hl ns2 hfuel
    rw [List.foldl_cons]
    have hsc : sc < g.size := hl sc (List.mem_cons_self _ _)
    have hrest : ∀ b ∈ rest, b < g.size :=
      fun b hb => hl b (List.mem_cons_of_mem _ hb)
    by_cases hguard : sc ∉ ns2 ∧ dominates_node d s sc = true
    · have hst1 : succStep g d isEnd s fuel ns2 sc =
          add_nodes g d isEnd s fuel sc ns2 := by
        rw [succStep_eq, if_pos hguard]
      have hsub1 : ns2.Sublist (add_nodes g d isEnd s fuel sc ns2) :=
        add_nodes_sublist g d isEnd s fuel sc ns2
      have hfuel1 : fuel ≥ cap g.size (add_nodes g d isEnd s fuel sc ns2) + 1 :=
        le_trans (by
          have := cap_le_of_sublist g.size ns2 _ hsub1
          omega) hfuel
      have hih := ih hrest (add_nodes g d isEnd s fuel sc ns2) (by rw [← hst1] at hfuel1; rw [hst1] at hfuel1; exact hfuel1)
      have hsub2 : (add_nodes g d isEnd s fuel sc ns2).Sublist
          (rest.foldl (succStep g d isEnd s fuel) (add_nodes g d isEnd s fuel sc ns2)) :=
        foldl_succStep_sublist g d isEnd s fuel rest _
      rw [hst1]
      constructor
      · intro b hb hbe hbd
        rcases List.mem_cons.mp hb with hbsc | hbrest
        · subst hbsc
          exact hsub2.subset ((hA b ns2 hguard.1 hsc hfuel).1 hbe)
        · exact hih.1 b hbrest hbe hbd
      · intro a ha hans2 c hc
        by_cases hain : a ∈ add_nodes g d isEnd s fuel sc ns2
        · exact hsub2.subset
            ((hA sc ns2 hguard.1 hsc hfuel).2 a hain hans2 c hc)
        · exact hih.2 a ha hain c hc
    · have hst1 : succStep g d isEnd s fuel ns2 sc = ns2 := by
        rw [succStep_eq, if_neg hguard]
      rw [hst1]
      have hih := ih hrest ns2 hfuel
      constructor
      · intro b hb hbe hbd
        rcases List.mem_cons.mp hb with hbsc | hbrest
        · subst hbsc
          have hbns2 : b ∈ ns2 := by
            by_contra hbn
            exact hguard ⟨hbn, hbd⟩
          exact (foldl_succStep_sublist g d isEnd s fuel rest ns2).subset hbns2
        · exact hih.1 b hbrest hbe hbd
      · exact hih.2

theorem add_nodes_cover_closed (g : Graph) (d : List (List Bool))
    (isEnd : Nat → Bool) (s : Nat)
    (hwf : ∀ n, ∀ b ∈ g.succ n, b < g.size) :
    ∀ (fuel node : Nat) (ns : List Nat),
      node ∉ ns → node < g.size → fuel ≥ cap g.size ns + 1 →
      (isEnd node = false → node ∈ add_nodes g d isEnd s fuel node ns) ∧
      (∀ a ∈ add_nodes g d isEnd s fuel node ns, a ∉ ns →
        ∀ c, StepEdge g d isEnd s a c → c ∈ add_nodes g d isEnd s fuel node ns) := by
  intro fuel
  induction fuel with
  | zero =>
    intro node ns _ _ hfuel
    omega
  | succ fuel ih =>
    intro node ns hmem hlt hfuel
    by_cases hend : isEnd node = true
    · rw [add_nodes_succ, if_pos hend]
      refine ⟨fun hc => ?_, ?_⟩
      · rw [hend] at hc; cases hc
      · intro a ha hans _ _
        exact absurd ha hans
    · rw [add_nodes_succ, if_neg hend]
      have hfuel' : fuel ≥ cap g.size (ns ++ [node]) + 1 := by
        have := cap_append_lt g.size ns node hlt hmem
        omega
      have hfold := foldl_cover_closed g d isEnd s fuel ih (g.succ node)
        (fun b hb => hwf node b hb) (ns ++ [node]) hfuel'
      have hsub : (ns ++ [node]).Sublist
          ((g.succ node).foldl (succStep g d isEnd s fuel) (ns ++ [node])) :=
        foldl_succStep_sublist g d isEnd s fuel _ _
      constructor
      · intro _
        exact hsub.subset (by simp)
      · intro a ha hans c hc
        by_cases han : a = node
        · subst han
          exact hfold.1 c hc.2.2 hc.1 hc.2.1
        · have hans' : a ∉ ns ++ [node] := by
            simp only [List.mem_append, List.mem_singleton]
            rintro (h | h)
            · exact hans h
            · exact han h
          exact hfold.2 a ha hans' c hc

/-! ### Characterization of region membership -/

/-- A node is in the selected region iff the start node is not a boundary and
the node is reachable from the start along edges whose targets are
non-boundary nodes dominated by the start. -/
theorem select_mem_iff (g : Graph) (d : List (List Bool)) (isEnd : Nat → Bool)
    (s : Nat) (hwf : ∀ n, ∀ b ∈ g.succ n, b < g.size) (hs : s < g.size)
    (x : Nat) :
    x ∈ select g d isEnd s ↔
      (isEnd s = false ∧ Relation.ReflTransGen (StepEdge g d isEnd s) s x) := by
  constructor
  · intro hx
    rcases add_nodes_sound g d isEnd s (g.size + 1) s [] x hx with hin | h
    · simp at hin
    · exact h
  · rintro ⟨hse, hrtg⟩
    have hcc := add_nodes_cover_closed g d isEnd s hwf (g.size + 1) s []
      (by simp) hs (by rw [cap_nil])
    induction hrtg with
    | refl => exact hcc.1 hse
    | tail hyx hedge ih =>
      exact hcc.2 _ ih (by simp) _ hedge

/-! ### Claim C9 -/

/-- C9: Order-independence and determinism of region membership — for a fixed
dominance table, start node and boundary predicate, the set of selected nodes
is unchanged when each node's successor list is replaced by one with the same
members (any reordering), and selection run twice on identical inputs yields
the identical node list. -/
theorem C9_order_independence (g1 g2 : Graph) (d : List (List Bool))
    (isEnd : Nat → Bool) (s : Nat)
    (hwf1 : ∀ n, ∀ b ∈ g1.succ n, b < g1.size)
    (hs : s < g1.size)
    (hsize : g2.size = g1.size)
    (hsucc : ∀ n x, x ∈ g2.succ n ↔ x ∈ g1.succ n) :
    (select g2 d isEnd s).toFinset = (select g1 d isEnd s).toFinset ∧
      select g1 d isEnd s = select g1 d isEnd s := by
  refine ⟨?_, rfl⟩
  have hwf2 : ∀ n, ∀ b ∈ g2.succ n, b < g2.size := by
    intro n b hb
    rw [hsize]
    exact hwf1 n b ((hsucc n b).mp hb)
  have hedge12 : ∀ a b, StepEdge g2 d isEnd s a b → StepEdge g1 d isEnd s a b := by
    rintro a b ⟨h1, h2, h3⟩
    exact ⟨h1, h2, (hsucc a b).mp h3⟩
  have hedge21 : ∀ a b, StepEdge g1 d isEnd s a b → StepEdge g2 d isEnd s a b := by
    rintro a b ⟨h1, h2, h3⟩
    exact ⟨h1, h2, (hsucc a b).mpr h3⟩
  ext x
  simp only [List.mem_toFinset]
  rw [select_mem_iff g2 d isEnd s hwf2 (by omega) x,
    select_mem_iff g1 d isEnd s hwf1 hs x]
  constructor
  · rintro ⟨h1, h2⟩
    exact ⟨h1, Relation.ReflTransGen.mono hedge12 h2⟩
  · rintro ⟨h1, h2⟩
    exact ⟨h1, Relation.ReflTransGen.mono hedge21 h2⟩

theorem diamond_succ_mem (n x : Nat) :
    x ∈ diamondGrev.succ n ↔ x ∈ diamondG.succ n := by
  rcases n with _ | _ | _ | _ | n <;> simp [diamondG, diamondGrev] <;> tauto

theorem C9_witness :
    (∀ n, ∀ b ∈ diamondG.succ n, b < diamondG.size) ∧ 0 < diamondG.size ∧
      ((select diamondGrev (dominatorTable diamondG) (fun _ => false) 0).toFinset =
          (select diamondG (dominatorTable diamondG) (fun _ => false) 0).toFinset ∧
        select diamondG (dominatorTable diamondG) (fun _ => false) 0 =
          select diamondG (dominatorTable diamondG) (fun _ => false) 0) :=
  ⟨diamondG_WF.2.2, by decide,
    C9_order_independence diamondG diamondGrev (dominatorTable diamondG)
      (fun _ => false) 0 diamondG_WF.2.2 (by decide) rfl diamond_succ_mem⟩

/-! ### Agreement of the checked layer with the total layer -/

theorem getElem?_of_getD {α : Type} (l : List α) (n : Nat) (d : α)
    (h : n < l.length) : l[n]? = some (l.getD n d) := by
  rw [List.getElem?_eq_getElem h, List.getD_eq_getElem?_getD,
    List.getElem?_eq_getElem h]
  rfl

theorem bsOrC_eq : ∀ (a b : List Bool), a.length ≤ b.length →
    bsOrC a b = some (bsOr a b) := by
  intro a
  induction a with
  | nil =>
    intro b _
    rfl
  | cons x xs ih =>
    intro b hlen
    cases b with
    | nil => simp at hlen
    | cons y ys =>
      have hlen' : xs.length ≤ ys.length := by simpa using hlen
      rw [bsOrC]
      cases x
      · simp only [List.head?_cons, List.tail_cons, Bool.false_eq_true, if_false]
        rw [ih ys hlen']
        rfl
      · simp only [List.tail_cons, if_true]
        rw [ih ys hlen']
        rfl

theorem bsAndC_eq : ∀ (a b : List Bool), a.length ≤ b.length →
    bsAndC a b = some (bsAnd a b) := by
  intro a
  induction a with
  | nil =>
    intro b _
    rfl
  | cons x xs ih =>
    intro b hlen
    cases b with
    | nil => simp at hlen
    | cons y ys =>
      have hlen' : xs.length ≤ ys.length := by simpa using hlen
      rw [bsAndC]
      cases x
      · simp only [Bool.false_eq_true, if_false]
        rw [List.tail_cons, ih ys hlen']
        rfl
      · simp only [if_true, List.head?_cons, List.tail_cons]
        rw [ih ys hlen']
        rfl

theorem bsSetC_eq (v : List Bool) (n : Nat) (h : n < v.length) :
    bsSetC v n = some (bsSet v n) := by
  rw [bsSetC, if_pos h]
  rfl

theorem bsOr_replicate_false : ∀ (v : List Bool) (n : Nat), v.length = n →
    bsOr (List.replicate n false) v = v := by
  intro v
  induction v with
  | nil =>
    intro n hn
    subst hn
    rfl
  | cons x xs ih =>
    intro n hn
    subst hn
    show bsOr (List.replicate (xs.length + 1) false) (x :: xs) = x :: xs
    rw [List.replicate_succ, bsOr, List.zipWith_cons_cons, Bool.false_or]
    rw [show List.zipWith (fun x y => x || y) (List.replicate xs.length false) xs
      = bsOr (List.replicate xs.length false) xs from rfl, ih xs.length rfl]

theorem predStepC_eq (g : Graph) (node p : Nat)
    (hn : node < g.size) (hp : p < g.size)
    (acc : List (List Bool) × Bool) (h : TableInv g acc.1) :
    predStepC g.size node acc p = some (predStep node acc p) := by
  obtain ⟨hL, hRL, hSelf, hEntry⟩ := h
  have hdn : acc.1[node]? = some (acc.1.getD node []) :=
    getElem?_of_getD _ _ _ (by omega)
  have hdp : acc.1[p]? = some (acc.1.getD p []) :=
    getElem?_of_getD _ _ _ (by omega)
  have hdnl : (acc.1.getD node []).length = g.size := hRL node hn
  have hdpl : (acc.1.getD p []).length = g.size := hRL p hp
  have ht : bsOrC (List.replicate g.size false) (acc.1.getD node []) =
      some (acc.1.getD node []) := by
    rw [bsOrC_eq _ _ (by rw [List.length_replicate, hdnl]),
      bsOr_replicate_false _ _ hdnl]
  have hand : bsAndC (acc.1.getD node []) (acc.1.getD p []) =
      some (bsAnd (acc.1.getD node []) (acc.1.getD p [])) :=
    bsAndC_eq _ _ (by rw [hdnl, hdpl])
  have handl : (bsAnd (acc.1.getD node []) (acc.1.getD p [])).length = g.size := by
    rw [bsAnd_length, hdnl, hdpl, Nat.min_self]
  have hset : bsSetC (bsAnd (acc.1.getD node []) (acc.1.getD p [])) node =
      some (bsSet (bsAnd (acc.1.getD node []) (acc.1.getD p [])) node) :=
    bsSetC_eq _ _ (by omega)
  simp only [predStepC, getRowC, hdn, ht, hdp, hand, hset,
    Option.bind_eq_bind, Option.some_bind]
  rfl

theorem nodeStepC_eq (g : Graph) (hg : g.WF) (node : Nat) (hn : node < g.size)
    (acc : List (List Bool) × Bool) (h : TableInv g acc.1) :
    nodeStepC g acc node = some (nodeStep g acc node) := by
  rw [nodeStepC, nodeStep]
  split
  · rfl
  · have hfold : ∀ (l : List Nat), (∀ q ∈ l, q < g.size) →
        ∀ acc2 : List (List Bool) × Bool, TableInv g acc2.1 →
          l.foldlM (predStepC g.size node) acc2 =
            some (l.foldl (predStep node) acc2) := by
      intro l
      induction l with
      | nil =>
        intro _ acc2 _
        rfl
      | cons q rest ih =>
        intro hql acc2 hacc2
        rw [List.foldlM_cons, List.foldl_cons]
        simp only [predStepC_eq g node q hn (hql q (List.mem_cons_self _ _)) acc2 hacc2,
          Option.bind_eq_bind, Option.some_bind]
        exact ih (fun r hr => hql r (List.mem_cons_of_mem _ hr)) _
          (tableInv_predStep g node q hn (hql q (List.mem_cons_self _ _)) acc2 hacc2)
    exact hfold (g.pred node) (fun q hq => hg.2.1 node q hq) acc h

theorem onePassC_eq (g : Graph) (hg : g.WF) (doms : List (List Bool))
    (h : TableInv g doms) : onePassC g doms = some (onePass g doms) := by
  rw [onePassC, onePass]
  have hfold : ∀ (l : List Nat), (∀ q ∈ l, q < g.size) →
      ∀ acc : List (List Bool) × Bool, TableInv g acc.1 →
        l.foldlM (nodeStepC g) acc = some (l.foldl (nodeStep g) acc) := by
    intro l
    induction l with
    | nil =>
      intro _ acc _
      rfl
    | cons q rest ih =>
      intro hql acc hacc
      rw [List.foldlM_cons, List.foldl_cons]
      simp only [nodeStepC_eq g hg q (hql q (List.mem_cons_self _ _)) acc hacc,
        Option.bind_eq_bind, Option.some_bind]
      exact ih (fun r hr => hql r (List.mem_cons_of_mem _ hr)) _
        (tableInv_nodeStep g hg q (hql q (List.mem_cons_self _ _)) acc hacc)
  exact hfold (List.range g.size) (fun q hq => List.mem_range.mp hq) (doms, false) h

theorem domLoopC_eq (g : Graph) (hg : g.WF) :
    ∀ (fuel : Nat) (doms : List (List Bool)), TableInv g doms →
      domLoopC g fuel doms = some (domLoop g fuel doms) := by
  intro fuel
  induction fuel with
  | zero =>
    intro doms _
    rfl
  | succ fuel ih =>
    intro doms h
    rw [domLoopC, domLoop]
    simp only [onePassC_eq g hg doms h, Option.bind_eq_bind, Option.some_bind]
    split
    · exact ih _ (tableInv_onePass g hg doms h)
    · rfl

theorem initDomsC_eq (g : Graph) (hg : g.WF) :
    initDomsC g = some (initDoms g) := by
  have hrow : (List.replicate g.size (List.replicate g.size true))[g.entry]? =
      some (List.replicate g.size true) := by
    rw [List.getElem?_replicate, if_pos hg.1]
  have hlen : g.entry <
      (List.replicate (List.replicate g.size true).length false).length := by
    simp only [List.length_replicate]
    exact hg.1
  simp only [initDomsC, getRowC, hrow, Option.bind_eq_bind,
    Option.some_bind, Option.pure_def, List.length_replicate]
  rw [initDoms, bsSetC_eq _ _ (by simp only [List.length_replicate]; exact hg.1),
    Option.some_bind]

theorem dominatorTableC_agrees (g : Graph) (hg : g.WF) :
    dominatorTableC g = some (dominatorTable g) := by
  rw [dominatorTableC]
  simp only [initDomsC_eq g hg, Option.bind_eq_bind, Option.some_bind]
  rw [dominatorTable]
  exact domLoopC_eq g hg _ _ (tableInv_initDoms g hg)

/-! ### Claim C10 -/

/-- C10: All bit-vector accesses stay in bounds — on a well-formed graph the
checked construction (every `at` access modelled with `Option`) succeeds and
computes exactly the dominance table, and a `dominates` query on valid node
ids succeeds and computes exactly `dominates_node`; the out-of-range branch
of the checked accessor is never taken. -/
theorem C10_accesses_in_bounds (g : Graph) (hg : g.WF) :
    dominatorTableC g = some (dominatorTable g) ∧
      ∀ a b : Nat, a < g.size → b < g.size →
        dominates_nodeC (dominatorTable g) a b =
          some (dominates_node (dominatorTable g) a b) := by
  refine ⟨dominatorTableC_agrees g hg, ?_⟩
  intro a b ha hb
  obtain ⟨hL, hRL, -, -⟩ := tableInv_dominatorTable g hg
  have hrow : (dominatorTable g)[b]? = some ((dominatorTable g).getD b []) :=
    getElem?_of_getD _ _ _ (by omega)
  simp only [dominates_nodeC, getRowC, hrow, bsTestC,
    Option.bind_eq_bind, Option.some_bind]
  rw [getElem?_of_getD _ _ false (by rw [hRL b hb]; exact ha)]
  rfl

theorem C10_witness :
    chainG.WF ∧
      (dominatorTableC chainG = some (dominatorTable chainG) ∧
        ∀ a b : Nat, a < chainG.size → b < chainG.size →
          dominates_nodeC (dominatorTable chainG) a b =
            some (dominates_node (dominatorTable chainG) a b)) :=
  ⟨chainG_WF, C10_accesses_in_bounds chainG chainG_WF⟩

end GraphGrouper
